import Mathlib

/-!
Verification of the numerical engine of `lif_meanfield_tools` (stationary
Siegert rates, fixed-point rate iteration, transfer functions, delay
distribution matrices and spectral analysis), shallowly embedded over the
real and complex numbers.

External numerical routines that are not part of the repository's sources
(SciPy's adaptive quadrature `quad`, mpmath's parabolic cylinder function
`pcfu`, and NumPy's eigen-decomposition `np.linalg.eig`) are abstracted as
oracle functions collected in `NumOracles`; every embedded definition is
parametric in the oracle bundle and otherwise follows the Python source
line by line.
-/

/-- Oracle bundle abstracting the external numerical routines called by the
source: `quad1` is the value of the adaptive quadrature performed in
`siegert1` (as a function of the normalised threshold and reset distances
`y_th`, `y_r`, which also determine the integration bracket searched by the
doubling/halving loops), `quad2` the corresponding quadrature of `siegert2`,
`pcfu` mpmath's parabolic cylinder function `U`, and `eig` NumPy's
eigen-decomposition returning (eigenvalues, right-eigenvector matrix). -/
structure NumOracles where
  quad1 : ℝ → ℝ → ℝ
  quad2 : ℝ → ℝ → ℝ
  pcfu : ℂ → ℂ → ℂ
  eig : (m : ℕ) → Matrix (Fin m) (Fin m) ℂ → (Fin m → ℂ) × Matrix (Fin m) (Fin m) ℂ

/-- A concrete oracle bundle used to instantiate counterexamples and
witnesses at explicit inputs. -/
def trivOracles : NumOracles where
  quad1 := fun _ _ => 1
  quad2 := fun _ _ => 1
  pcfu := fun _ _ => 1
  eig := fun _ _ => (fun _ => 1, 1)

/-- The Gauss error function, `erf x = 2/√π ∫ 0..x exp (-t^2)`
(`scipy.special.erf` on real arguments). -/
noncomputable def erf (x : ℝ) : ℝ :=
  2 / Real.sqrt Real.pi * ∫ t in (0 : ℝ)..x, Real.exp (-t ^ 2)

/-- The error function along the complex ray from `0` to `z`
(`scipy.special.erf` on complex arguments), written as a parametrised path
integral `erf z = 2/√π ∫ 0..1 z · exp (-(t·z)^2)`. -/
noncomputable def erfC (z : ℂ) : ℂ :=
  2 / (Real.sqrt Real.pi : ℂ) * ∫ t in (0 : ℝ)..(1 : ℝ), z * Complex.exp (-((t : ℂ) * z) ^ 2)

/-- `scipy.special.zetac`: the Riemann zeta function minus one, on the real
axis. -/
noncomputable def zetac (x : ℝ) : ℝ := (riemannZeta (x : ℂ)).re - 1

/-- The constant `alpha = sqrt 2 * |zetac 0.5 + 1|` recomputed at the top of
several source functions (`aux_calcs.py`). -/
noncomputable def alpha : ℝ := Real.sqrt 2 * |zetac 0.5 + 1|

/-- `aux_calcs.Phi` on real arguments:
`Phi s = sqrt (pi/2) * (exp (s^2/2) * (1 + erf (s/sqrt 2)))`. -/
noncomputable def Phi (s : ℝ) : ℝ :=
  Real.sqrt (Real.pi / 2) * (Real.exp (s ^ 2 / 2) * (1 + erf (s / Real.sqrt 2)))

/-- `aux_calcs.Phi` as applied to complex arguments (NumPy broadcasts the
same formula over complex input in the truncated-Gaussian delay branch). -/
noncomputable def PhiC (s : ℂ) : ℂ :=
  (Real.sqrt (Real.pi / 2) : ℂ) * (Complex.exp (s ^ 2 / 2) * (1 + erfC (s / (Real.sqrt 2 : ℂ))))

/-- `aux_calcs.siegert1`: branch of the stationary delta-synapse rate used
for `mu` below the branch cut.  The bracket search (halving of the lower
bound, doubling of the upper bound until the integrand drops below `1e-12`)
and the adaptive quadrature proper are performed by SciPy's `quad` and are
abstracted into `O.quad1 y_th y_r`; the source scales the quadrature value
by `exp (y_th^2)` and short-circuits to `0` when `y_th >= 20`. -/
noncomputable def siegert1 (O : NumOracles)
    (tau_m tau_r V_th_rel V_0_rel mu sigma : ℝ) : ℝ :=
  let y_th := (V_th_rel - mu) / sigma
  let y_r := (V_0_rel - mu) / sigma
  if y_th ≥ 20 then 0
  else 1 / (tau_r + Real.exp (y_th ^ 2) * O.quad1 y_th y_r * tau_m)

/-- `aux_calcs.siegert2`: branch of the stationary delta-synapse rate used
for `mu` above the branch cut; the quadrature from `0` to the
doubled-until-small upper bound is abstracted into `O.quad2 y_th y_r`. -/
noncomputable def siegert2 (O : NumOracles)
    (tau_m tau_r V_th_rel V_0_rel mu sigma : ℝ) : ℝ :=
  let y_th := (V_th_rel - mu) / sigma
  let y_r := (V_0_rel - mu) / sigma
  1 / (tau_r + O.quad2 y_th y_r * tau_m)

/-- `aux_calcs.nu_0`: stationary firing rate for delta-shaped PSCs,
dispatching on `mu <= V_th_rel + (0.95 * |V_th_rel| - |V_th_rel|)` exactly
as the source does. -/
noncomputable def nu_0 (O : NumOracles)
    (tau_m tau_r V_th_rel V_0_rel mu sigma : ℝ) : ℝ :=
  if mu ≤ V_th_rel + (0.95 * |V_th_rel| - |V_th_rel|) then
    siegert1 O tau_m tau_r V_th_rel V_0_rel mu sigma
  else
    siegert2 O tau_m tau_r V_th_rel V_0_rel mu sigma

/-- `aux_calcs.nu0_fb433`: stationary firing rate for exponential PSCs with
the Fourcaud–Brunel (Eq. 433) correction.  (The source additionally prints a
diagnostic when the result is NaN, which has no counterpart over `ℝ`.) -/
noncomputable def nu0_fb433 (O : NumOracles)
    (tau_m tau_s tau_r V_th_rel V_0_rel mu sigma : ℝ) : ℝ :=
  let x_th := Real.sqrt 2 * (V_th_rel - mu) / sigma
  let x_r := Real.sqrt 2 * (V_0_rel - mu) / sigma
  if x_th > 20 / Real.sqrt 2 then
    nu_0 O tau_m tau_r V_th_rel V_0_rel mu sigma
  else
    let r := nu_0 O tau_m tau_r V_th_rel V_0_rel mu sigma
    r - Real.sqrt (tau_s / tau_m) * alpha / (tau_m * Real.sqrt 2)
      * (Phi x_th - Phi x_r) * (r * tau_m) ^ 2

/-- `aux_calcs.d_nu_d_mu` (six parameters: `tau_m, tau_r, V_th_rel, V_0_rel,
mu, sigma`). -/
noncomputable def d_nu_d_mu (O : NumOracles)
    (tau_m tau_r V_th_rel V_0_rel mu sigma : ℝ) : ℝ :=
  let y_th := (V_th_rel - mu) / sigma
  let y_r := (V_0_rel - mu) / sigma
  let nu0 := nu_0 O tau_m tau_r V_th_rel V_0_rel mu sigma
  Real.sqrt Real.pi * tau_m * nu0 ^ 2 / sigma
    * (Real.exp (y_th ^ 2) * (1 + erf y_th) - Real.exp (y_r ^ 2) * (1 + erf y_r))

/-- `aux_calcs.Psi`: `exp (x^2/4) * U (z, -x)` with `U` the parabolic
cylinder function provided by mpmath (oracle `O.pcfu`). -/
noncomputable def Psi (O : NumOracles) (z x : ℂ) : ℂ :=
  Complex.exp (0.25 * x ^ 2) * O.pcfu z (-x)

/-- `aux_calcs.d_Psi`: first derivative of `Psi` by the order recurrence. -/
noncomputable def d_Psi (O : NumOracles) (z x : ℂ) : ℂ :=
  (1 / 2 + z) * Psi O (z + 1) x

/-- `aux_calcs.d_2_Psi`: second derivative of `Psi` by the order
recurrence. -/
noncomputable def d_2_Psi (O : NumOracles) (z x : ℂ) : ℂ :=
  (1 / 2 + z) * (3 / 2 + z) * Psi O (z + 2) x

/-- `aux_calcs.Psi_x_r`. -/
noncomputable def Psi_x_r (O : NumOracles) (z x y : ℂ) : ℂ := Psi O z x - Psi O z y

/-- `aux_calcs.dPsi_x_r`. -/
noncomputable def dPsi_x_r (O : NumOracles) (z x y : ℂ) : ℂ := d_Psi O z x - d_Psi O z y

/-- `aux_calcs.d2Psi_x_r`. -/
noncomputable def d2Psi_x_r (O : NumOracles) (z x y : ℂ) : ℂ := d_2_Psi O z x - d_2_Psi O z y

/-- Python exception values that the embedded code can raise. -/
inductive PyError where
  | typeError
deriving DecidableEq, Repr

/-- `meanfield_calcs.transfer_function_1p_shift`.  The thresholds are first
shifted by `sigma * alpha / 2 * sqrt (tau_s / tau_m)`.  In the
zero-frequency branch (`|omega - 0| < 1e-15`) the source calls
`aux_calcs.d_nu_d_mu` with seven positional arguments
`(tau_m, tau_s, tau_r, V_th_rel, V_0_rel, mu, sigma)` although `d_nu_d_mu`
has only six parameters, so Python raises a `TypeError` there; the nonzero
branch returns `sqrt 2 / sigma * nu / (1 + i*omega*tau_m) * frac`. -/
noncomputable def transfer_function_1p_shift (O : NumOracles)
    (mu sigma tau_m tau_s tau_r V_th_rel V_0_rel omega : ℝ) : Except PyError ℂ :=
  let V_th := V_th_rel + sigma * alpha / 2 * Real.sqrt (tau_s / tau_m)
  let V_0 := V_0_rel + sigma * alpha / 2 * Real.sqrt (tau_s / tau_m)
  if |omega - 0| < 1e-15 then
    Except.error PyError.typeError
  else
    let nu := nu_0 O tau_m tau_r V_th V_0 mu sigma
    let x_t := Real.sqrt 2 * (V_th - mu) / sigma
    let x_r := Real.sqrt 2 * (V_0 - mu) / sigma
    let z : ℂ := ⟨-0.5, omega * tau_m⟩
    let frac := dPsi_x_r O z x_t x_r / Psi_x_r O z x_t x_r
    Except.ok (((Real.sqrt 2 / sigma * nu : ℝ) : ℂ) / (1 + (⟨0, omega * tau_m⟩ : ℂ)) * frac)

/-- Left-to-right effectful map over a list: a Python `for`-comprehension
whose body may raise, where the first exception aborts the whole
comprehension. -/
def mapExcept {α β : Type} (f : α → Except PyError β) : List α → Except PyError (List β)
  | [] => Except.ok []
  | x :: xs =>
    match f x, mapExcept f xs with
    | Except.error e, _ => Except.error e
    | Except.ok _, Except.error e => Except.error e
    | Except.ok y, Except.ok ys => Except.ok (y :: ys)

/-- `meanfield_calcs.transfer_function`: the batch evaluator.  The source
builds the nested list comprehension
`[[shift (mu[i], sigma[i], ..., omega) for i in range(dimension)] for omega in omegas]`
(outer loop over frequencies, inner loop over populations) and then only
repackages magnitudes and units, preserving the nesting; a Python exception
raised by any entry aborts the whole comprehension, which `mapExcept`
reproduces. -/
noncomputable def transfer_function (O : NumOracles) (mu sigma : ℕ → ℝ)
    (tau_m tau_s tau_r V_th_rel V_0_rel : ℝ) (dimension : ℕ) (omegas : List ℝ) :
    Except PyError (List (List ℂ)) :=
  mapExcept (fun omega =>
    mapExcept (fun i =>
        transfer_function_1p_shift O (mu i) (sigma i) tau_m tau_s tau_r V_th_rel V_0_rel omega)
      (List.range dimension))
    omegas

/-- Mean input vector computed inside `firing_rates.get_rate_difference`
(and in `meanfield_calcs.mean`):
`mu = dot (K * J) nu * tau_m + j * K_ext * nu_ext * tau_m`. -/
noncomputable def fr_mean {n : ℕ} (K J : Matrix (Fin n) (Fin n) ℝ) (j : ℝ)
    (K_ext : Fin n → ℝ) (nu_ext tau_m : ℝ) (nu : Fin n → ℝ) : Fin n → ℝ :=
  fun i => (∑ k, K i k * J i k * nu k) * tau_m + j * K_ext i * nu_ext * tau_m

/-- Standard deviation vector computed inside
`firing_rates.get_rate_difference` (and in
`meanfield_calcs.standard_deviation`):
`sigma = sqrt (dot (K * J^2) nu * tau_m + j^2 * K_ext * nu_ext * tau_m)`. -/
noncomputable def fr_std {n : ℕ} (K J : Matrix (Fin n) (Fin n) ℝ) (j : ℝ)
    (K_ext : Fin n → ℝ) (nu_ext tau_m : ℝ) (nu : Fin n → ℝ) : Fin n → ℝ :=
  fun i =>
    Real.sqrt ((∑ k, K i k * J i k ^ 2 * nu k) * tau_m + j ^ 2 * K_ext i * nu_ext * tau_m)

/-- `get_rate_difference` from `meanfield_calcs.firing_rates`:
`-nu + new_nu` where `new_nu` maps every `(mu_i, sigma_i)` through
`nu0_fb433`. -/
noncomputable def get_rate_difference {n : ℕ} (O : NumOracles)
    (tau_m tau_s tau_r V_0_rel V_th_rel : ℝ) (K J : Matrix (Fin n) (Fin n) ℝ)
    (j nu_ext : ℝ) (K_ext : Fin n → ℝ) (nu : Fin n → ℝ) : Fin n → ℝ :=
  fun i => -nu i + nu0_fb433 O tau_m tau_s tau_r V_th_rel V_0_rel
    (fr_mean K J j K_ext nu_ext tau_m nu i) (fr_std K J j K_ext nu_ext tau_m nu i)

/-- Maximum of a list of reals (Python's built-in `max`; junk value `0` on
the empty list, where Python raises). -/
def listMax : List ℝ → ℝ
  | [] => 0
  | x :: xs => xs.foldl max x

/-- `max (np.abs v)` over a vector. -/
def maxAbs {n : ℕ} (v : Fin n → ℝ) : ℝ :=
  listMax ((List.finRange n).map fun i => |v i|)

/-- The `while eps >= 1e-5` loop of `meanfield_calcs.firing_rates`, with
explicit fuel since the source loop has no iteration cap.  Each pass sets
`y1 = y0 + delta * dt` with `dt = 0.05`, measures
`eps = max |y1 - y0|` and loops on `y1` while `eps >= 1e-5` (the initial
`eps = 1.0` means the body always runs at least once). -/
noncomputable def firing_rates_go {n : ℕ} (O : NumOracles)
    (tau_m tau_s tau_r V_0_rel V_th_rel : ℝ) (K J : Matrix (Fin n) (Fin n) ℝ)
    (j nu_ext : ℝ) (K_ext : Fin n → ℝ) : ℕ → (Fin n → ℝ) → Option (Fin n → ℝ)
  | 0, _ => none
  | fuel + 1, nu =>
    let nu1 := fun i =>
      nu i + get_rate_difference O tau_m tau_s tau_r V_0_rel V_th_rel K J j nu_ext K_ext nu i * 0.05
    if maxAbs (fun i => nu1 i - nu i) ≥ 1e-5 then
      firing_rates_go O tau_m tau_s tau_r V_0_rel V_th_rel K J j nu_ext K_ext fuel nu1
    else some nu1

/-- `meanfield_calcs.firing_rates`: the relaxation starts from the zero rate
vector `y = np.zeros ((2, dimension))`. -/
noncomputable def firing_rates {n : ℕ} (O : NumOracles)
    (tau_m tau_s tau_r V_0_rel V_th_rel : ℝ) (K J : Matrix (Fin n) (Fin n) ℝ)
    (j nu_ext : ℝ) (K_ext : Fin n → ℝ) (fuel : ℕ) : Option (Fin n → ℝ) :=
  firing_rates_go O tau_m tau_s tau_r V_0_rel V_th_rel K J j nu_ext K_ext fuel (fun _ => 0)

/-- Minimum value of a list of reals (junk value `0` on the empty list). -/
def minVal : List ℝ → ℝ
  | [] => 0
  | [x] => x
  | x :: y :: xs => min x (minVal (y :: xs))

/-- `np.argmin`: index of the first occurrence of the minimum of a list. -/
noncomputable def argminIdx : List ℝ → ℕ
  | [] => 0
  | [_] => 0
  | x :: y :: xs => if x ≤ minVal (y :: xs) then 0 else argminIdx (y :: xs) + 1
termination_by l => l.length

/-- The per-population factor `H` shared by `sensitivity_measure`,
`power_spectra` and `eigen_spectra`: the source conjugates the transfer
function for `omega < 0`, computes
`H = tau_m * transfer_function.T / complex (1, omega * tau_s)` and then
replicates it via `hstack` / `reshape` / `transpose` into the matrix whose
row `i` is constantly `H i`. -/
noncomputable def sm_H {n : ℕ} (tf : Fin n → ℂ) (tau_m tau_s omega : ℝ) : Fin n → ℂ :=
  fun i =>
    (tau_m : ℂ) * (if omega < 0 then (starRingEnd ℂ) (tf i) else tf i) / (⟨1, omega * tau_s⟩ : ℂ)

/-- The effective connectivity matrix `MH = H * J * delay_dist_matrix`
(elementwise) built inside `meanfield_calcs.sensitivity_measure`. -/
noncomputable def sm_MH {n : ℕ} (tf : Fin n → ℂ) (ddm : Matrix (Fin n) (Fin n) ℂ)
    (J : Matrix (Fin n) (Fin n) ℝ) (tau_m tau_s omega : ℝ) : Matrix (Fin n) (Fin n) ℂ :=
  Matrix.of fun i j => sm_H tf tau_m tau_s omega i * (J i j : ℂ) * ddm i j

/-- `meanfield_calcs.sensitivity_measure`: eigendecomposes `MH` (oracle
`O.eig` for `np.linalg.eig`), inverts the right-eigenvector matrix, picks
`index = np.argmin (np.abs (e - 1))` (the local `index` variable is
initialised to `None` and immediately overwritten, so the argmin is always
used), and returns
`outer (U_inv[index], U[:,index]) / dot (U_inv[index], U[:,index]) * MH`.
The guard `idx < n` always holds for `n > 0`; `np.argmin` raises on an
empty eigenvalue array, so the `else` branch is unreachable for any actual
call. -/
noncomputable def sensitivity_measure {n : ℕ} (O : NumOracles) (tf : Fin n → ℂ)
    (ddm : Matrix (Fin n) (Fin n) ℂ) (J : Matrix (Fin n) (Fin n) ℝ)
    (tau_m tau_s omega : ℝ) : Matrix (Fin n) (Fin n) ℂ :=
  let MH := sm_MH tf ddm J tau_m tau_s omega
  let e := (O.eig n MH).1
  let U := (O.eig n MH).2
  let U_inv := U⁻¹
  let idx := argminIdx ((List.finRange n).map fun m => Complex.abs (e m - 1))
  if h : idx < n then
    let k : Fin n := ⟨idx, h⟩
    Matrix.of fun i j => U_inv k i * U j k / (∑ m, U_inv k m * U m k) * MH i j
  else 0

/-- `power_spectra_single_freq` from `meanfield_calcs.power_spectra`: the
effective connectivity is additionally scaled by the indegree matrix `K`,
`Q = (I - MH)⁻¹`, `D = diag (ones) * firing_rates / N`,
`C = Q · D · Qᴴ`, and the result is `np.absolute (np.diag C)`. -/
noncomputable def power_spectra_single_freq {n : ℕ} (tf : Fin n → ℂ)
    (J K : Matrix (Fin n) (Fin n) ℝ) (ddm : Matrix (Fin n) (Fin n) ℂ)
    (rates Npop : Fin n → ℝ) (tau_m tau_s omega : ℝ) : Fin n → ℝ :=
  let MH : Matrix (Fin n) (Fin n) ℂ :=
    Matrix.of fun i j => sm_H tf tau_m tau_s omega i * (J i j : ℂ) * (K i j : ℂ) * ddm i j
  let Q := (1 - MH)⁻¹
  let D : Matrix (Fin n) (Fin n) ℂ :=
    Matrix.of fun i j => (if i = j then (1 : ℂ) else 0) * (rates j : ℂ) / (Npop j : ℂ)
  let C := Q * (D * Q.conjTranspose)
  fun i => Complex.abs (C i i)

/-- `meanfield_calcs.power_spectra`: evaluates the single-frequency spectrum
at every frequency of the grid (the per-frequency transfer-function vectors
and delay matrices are passed as lists aligned with `omegas`, exactly as the
source indexes `transfer_function[i]` and `delay_dist_matrix[i]`), then
transposes the resulting (frequency × population) array so that populations
index the first axis. -/
noncomputable def power_spectra {n : ℕ} (tfs : List (Fin n → ℂ))
    (ddms : List (Matrix (Fin n) (Fin n) ℂ)) (J K : Matrix (Fin n) (Fin n) ℝ)
    (rates Npop : Fin n → ℝ) (tau_m tau_s : ℝ) (omegas : List ℝ) : Fin n → List ℝ :=
  let rows := (List.range omegas.length).map fun w =>
    power_spectra_single_freq (tfs.getD w fun _ => 0) J K (ddms.getD w 0)
      rates Npop tau_m tau_s (omegas.getD w 0)
  fun i => rows.map fun v => v i

/-- The three delay-distribution kinds dispatched on by
`meanfield_calcs.delay_dist_matrix_single` (the source uses the strings
`'none'`, `'truncated_gaussian'`, `'gaussian'`). -/
inductive DelayDist where
  | none
  | truncated_gaussian
  | gaussian
deriving DecidableEq, Repr

/-- `meanfield_calcs.delay_dist_matrix_single`: the matrix of delay
distribution specific pre-factors at frequency `omega`.  `np.complex (0, omega)`
is the complex number `⟨0, omega⟩`. -/
noncomputable def delay_dist_matrix_single {n : ℕ} (Delay Delay_sd : Matrix (Fin n) (Fin n) ℝ)
    (delay_dist : DelayDist) (omega : ℝ) : Matrix (Fin n) (Fin n) ℂ :=
  match delay_dist with
  | DelayDist.none =>
    Matrix.of fun i j => 1 * Complex.exp (-(⟨0, omega⟩ : ℂ) * (Delay i j : ℂ))
  | DelayDist.truncated_gaussian =>
    Matrix.of fun i j =>
      (1 - PhiC (-(Delay i j : ℂ) / (Delay_sd i j : ℂ)
          + Complex.I * (omega : ℂ) * (Delay_sd i j : ℂ)))
        / (1 - PhiC (-(Delay i j : ℂ) / (Delay_sd i j : ℂ)))
        * Complex.exp (-0.5 * ((Delay_sd i j : ℂ) * (omega : ℂ)) ^ 2)
        * Complex.exp (-(⟨0, omega⟩ : ℂ) * (Delay i j : ℂ))
  | DelayDist.gaussian =>
    Matrix.of fun i j =>
      Complex.exp (-0.5 * ((Delay_sd i j : ℂ) * (omega : ℂ)) ^ 2)
        * Complex.exp (-(⟨0, omega⟩ : ℂ) * (Delay i j : ℂ))

theorem minVal_le : ∀ (l : List ℝ) (j : ℕ), j < l.length → minVal l ≤ l.getD j 0
  | [], j, h => absurd h (by simp)
  | [x], 0, _ => le_refl x
  | [x], j + 1, h => absurd h (by simp)
  | x :: y :: xs, 0, _ => min_le_left _ _
  | x :: y :: xs, j + 1, h =>
      le_trans (min_le_right _ _) (minVal_le (y :: xs) j (by simpa using h))

theorem argminIdx_lt_length : ∀ (l : List ℝ), 0 < l.length → argminIdx l < l.length
  | [], h => absurd h (by simp)
  | [x], _ => by simp [argminIdx]
  | x :: y :: xs, _ => by
      by_cases hc : x ≤ minVal (y :: xs)
      · simp [argminIdx, hc]
      · have ih := argminIdx_lt_length (y :: xs) (by simp)
        have ha : argminIdx (x :: y :: xs) = argminIdx (y :: xs) + 1 := by
          simp [argminIdx, hc]
        rw [ha]
        simp only [List.length_cons] at ih ⊢
        omega

theorem minVal_getD_argminIdx : ∀ (l : List ℝ), 0 < l.length → l.getD (argminIdx l) 0 = minVal l
  | [], h => absurd h (by simp)
  | [x], _ => by simp [argminIdx, minVal]
  | x :: y :: xs, _ => by
      by_cases hc : x ≤ minVal (y :: xs)
      · simp [argminIdx, minVal, hc, min_eq_left hc]
      · have ih := minVal_getD_argminIdx (y :: xs) (by simp)
        have hle : minVal (y :: xs) ≤ x := le_of_not_le hc
        have ha : argminIdx (x :: y :: xs) = argminIdx (y :: xs) + 1 := by
          simp [argminIdx, hc]
        have hmv : minVal (x :: y :: xs) = min x (minVal (y :: xs)) := by
          simp [minVal]
        rw [ha, List.getD_cons_succ, ih, hmv]
        exact (min_eq_right hle).symm

theorem argminIdx_first : ∀ (l : List ℝ) (j : ℕ), j < argminIdx l → minVal l < l.getD j 0
  | [], j, h => absurd h (by simp [argminIdx])
  | [x], j, h => absurd h (by simp [argminIdx])
  | x :: y :: xs, j, h => by
      by_cases hc : x ≤ minVal (y :: xs)
      · rw [show argminIdx (x :: y :: xs) = 0 by simp [argminIdx, hc]] at h
        exact absurd h (by omega)
      · have hlt : minVal (y :: xs) < x := not_le.mp hc
        have hm : minVal (x :: y :: xs) = minVal (y :: xs) := min_eq_right (le_of_lt hlt)
        cases j with
        | zero => rw [hm]; exact hlt
        | succ j =>
            have hj : j < argminIdx (y :: xs) := by
              simp only [argminIdx, if_neg hc] at h
              omega
            have ih := argminIdx_first (y :: xs) j hj
            rw [hm]
            simpa using ih

theorem getD_map_range {γ : Type} (f : ℕ → γ) (d : γ) (M w : ℕ) (hw : w < M) :
    ((List.range M).map f).getD w d = f w := by
  rw [List.getD_eq_getElem _ _ (by simpa using hw)]
  simp

theorem getD_map_finRange {n : ℕ} {γ : Type} (f : Fin n → γ) (d : γ) (m : Fin n) :
    ((List.finRange n).map f).getD (m : ℕ) d = f m := by
  rw [List.getD_eq_getElem _ _ (by simp)]
  simp

theorem mapExcept_ok_spec {α β : Type} (f : α → Except PyError β) (d : α) (d' : β) :
    ∀ (l : List α) (ys : List β), mapExcept f l = Except.ok ys →
      ys.length = l.length ∧ ∀ k, k < l.length → f (l.getD k d) = Except.ok (ys.getD k d')
  | [], ys, h => by
      simp only [mapExcept] at h
      cases h
      exact ⟨rfl, fun k hk => absurd hk (by simp)⟩
  | x :: xs, ys, h => by
      simp only [mapExcept] at h
      cases hfx : f x with
      | error e => rw [hfx] at h; exact absurd h (by simp)
      | ok y =>
        cases hxs : mapExcept f xs with
        | error e => rw [hfx, hxs] at h; exact absurd h (by simp)
        | ok zs =>
          rw [hfx, hxs] at h
          cases h
          obtain ⟨hlen, hidx⟩ := mapExcept_ok_spec f d d' xs zs hxs
          refine ⟨by simp [hlen], ?_⟩
          intro k hk
          cases k with
          | zero => simpa using hfx
          | succ k => simpa using hidx k (by simpa using hk)

theorem mapExcept_ok_of_mem {α β : Type} (f : α → Except PyError β) :
    ∀ (l : List α) (ys : List β), mapExcept f l = Except.ok ys →
      ∀ x ∈ l, ∃ y, f x = Except.ok y
  | [], _, _, x, hx => absurd hx (by simp)
  | a :: xs, ys, h, x, hx => by
      simp only [mapExcept] at h
      cases hfx : f a with
      | error e => rw [hfx] at h; exact absurd h (by simp)
      | ok y =>
        cases hxs : mapExcept f xs with
        | error e => rw [hfx, hxs] at h; exact absurd h (by simp)
        | ok zs =>
          rcases List.mem_cons.mp hx with rfl | hx'
          · exact ⟨y, hfx⟩
          · exact mapExcept_ok_of_mem f xs zs hxs x hx'

/-- C9: for every dimension, delay matrix, delay-sd matrix and frequency,
`delay_dist_matrix_single` with kind `none` returns `exp (-i*omega*D)`
elementwise; in particular at `omega = 0` it returns the real all-ones
matrix (no phase, no attenuation). -/
theorem claim9_delay_dist_none {n : ℕ} (Delay Delay_sd : Matrix (Fin n) (Fin n) ℝ)
    (omega : ℝ) :
    (∀ i j, delay_dist_matrix_single Delay Delay_sd DelayDist.none omega i j
        = Complex.exp (-(Complex.I * (omega : ℂ) * (Delay i j : ℂ))))
    ∧ ∀ i j, delay_dist_matrix_single Delay Delay_sd DelayDist.none 0 i j = 1 := by
  constructor
  · intro i j
    simp only [delay_dist_matrix_single, Matrix.of_apply, one_mul]
    congr 1
    rw [Complex.mk_eq_add_mul_I]
    push_cast
    ring
  · intro i j
    simp only [delay_dist_matrix_single, Matrix.of_apply, one_mul]
    have h0 : (⟨0, (0 : ℝ)⟩ : ℂ) = 0 := rfl
    rw [h0]
    simp

/-- C5: in branch A of the delta-synapse solver (`siegert1`), whenever the
normalised threshold distance `y_th = (V_th - mu)/sigma` is at least 20 the
returned rate is exactly 0. -/
theorem claim5_siegert1_overflow_guard (O : NumOracles)
    (tau_m tau_r V_th_rel V_0_rel mu sigma : ℝ)
    (h : (V_th_rel - mu) / sigma ≥ 20) :
    siegert1 O tau_m tau_r V_th_rel V_0_rel mu sigma = 0 := by
  simp only [siegert1]
  rw [if_pos h]

/-- C5 witness: concrete evaluation of the overflow guard at
`V_th = 1, mu = -20, sigma = 1` where `y_th = 21 ≥ 20`. -/
theorem claim5_witness :
    ((1 : ℝ) - (-20)) / 1 ≥ 20 ∧ siegert1 trivOracles 1 1 1 0 (-20) 1 = 0 :=
  ⟨by norm_num, claim5_siegert1_overflow_guard trivOracles 1 1 1 0 (-20) 1 (by norm_num)⟩

/-- C3: `nu0_fb433` first evaluates the delta-synapse rate `r`; if
`x_th = sqrt 2 * (V_th - mu) / sigma` lies beyond the transition bound
`20 / sqrt 2` it returns `r` unmodified, and otherwise it returns
`r - sqrt (tau_s/tau_m) * alpha / (tau_m * sqrt 2) * (Phi x_th - Phi x_r) * (r*tau_m)^2`
with `alpha = sqrt 2 * |zetac 0.5 + 1|` and
`x_r = sqrt 2 * (V_0 - mu) / sigma`. -/
theorem claim3_nu0_fb433 (O : NumOracles)
    (tau_m tau_s tau_r V_th_rel V_0_rel mu sigma : ℝ) :
    (Real.sqrt 2 * (V_th_rel - mu) / sigma > 20 / Real.sqrt 2 →
      nu0_fb433 O tau_m tau_s tau_r V_th_rel V_0_rel mu sigma
        = nu_0 O tau_m tau_r V_th_rel V_0_rel mu sigma)
    ∧ (Real.sqrt 2 * (V_th_rel - mu) / sigma ≤ 20 / Real.sqrt 2 →
      nu0_fb433 O tau_m tau_s tau_r V_th_rel V_0_rel mu sigma
        = nu_0 O tau_m tau_r V_th_rel V_0_rel mu sigma
          - Real.sqrt (tau_s / tau_m) * alpha / (tau_m * Real.sqrt 2)
            * (Phi (Real.sqrt 2 * (V_th_rel - mu) / sigma)
                - Phi (Real.sqrt 2 * (V_0_rel - mu) / sigma))
            * (nu_0 O tau_m tau_r V_th_rel V_0_rel mu sigma * tau_m) ^ 2) := by
  constructor
  · intro h
    simp only [nu0_fb433]
    rw [if_pos h]
  · intro h
    simp only [nu0_fb433]
    rw [if_neg (not_lt.mpr h)]

/-- C3 witness: at `V_th = 30, mu = 0, sigma = 1` the normalised distance
`x_th = 30 * sqrt 2` exceeds `20 / sqrt 2`, and the filtered rate equals the
delta rate. -/
theorem claim3_witness :
    nu0_fb433 trivOracles 1 1 1 30 0 0 1 = nu_0 trivOracles 1 1 30 0 0 1 := by
  apply (claim3_nu0_fb433 trivOracles 1 1 1 30 0 0 1).1
  have h2 : (0 : ℝ) < Real.sqrt 2 := Real.sqrt_pos.mpr (by norm_num)
  rw [gt_iff_lt, div_lt_iff₀ h2]
  have hs : Real.sqrt 2 * Real.sqrt 2 = 2 := Real.mul_self_sqrt (by norm_num)
  nlinarith [hs, h2]

/-- C4 counterexample: at `tau_m = tau_r = 1, V_th = 1, V_0 = 0, mu = -20,
sigma = 1` the solver takes branch A (`-20 ≤ 0.95`) and, since
`y_th = 21 ≥ 20`, returns `0` — which is not the reciprocal
`1 / (tau_r + tau_m * integral)` the claim asserts for every input (the
branch-A integral being `exp (y_th^2) * quad1 y_th y_r`). -/
theorem claim4_counterexample :
    nu_0 trivOracles 1 1 1 0 (-20) 1 = 0
    ∧ (1 : ℝ) / (1 + Real.exp (21 ^ 2) * trivOracles.quad1 21 20 * 1) ≠ 0 := by
  constructor
  · have hcut : (-20 : ℝ) ≤ 1 + (0.95 * |(1 : ℝ)| - |(1 : ℝ)|) := by norm_num
    have hyth : ((1 : ℝ) - (-20)) / 1 ≥ 20 := by norm_num
    simp only [nu_0]
    rw [if_pos hcut]
    simp only [siegert1]
    rw [if_pos hyth]
  · have hq : trivOracles.quad1 21 20 = 1 := rfl
    rw [hq]
    have hd : (0 : ℝ) < 1 + Real.exp (21 ^ 2) * 1 * 1 := by positivity
    exact ne_of_gt (by positivity)

/-- C4 (amended): `nu_0` selects branch A (`siegert1`) exactly when
`mu ≤ V_th - 0.05 * |V_th|` and branch B (`siegert2`) otherwise; branch B
always returns `1 / (tau_r + quad * tau_m)`, while branch A returns the
reciprocal `1 / (tau_r + exp (y_th^2) * quad * tau_m)` only when
`y_th < 20` and returns `0` when `y_th ≥ 20`. -/
theorem claim4_nu_0_branches (O : NumOracles)
    (tau_m tau_r V_th_rel V_0_rel mu sigma : ℝ) :
    (mu ≤ V_th_rel - 0.05 * |V_th_rel| →
      nu_0 O tau_m tau_r V_th_rel V_0_rel mu sigma
        = siegert1 O tau_m tau_r V_th_rel V_0_rel mu sigma)
    ∧ (V_th_rel - 0.05 * |V_th_rel| < mu →
      nu_0 O tau_m tau_r V_th_rel V_0_rel mu sigma
        = 1 / (tau_r
            + O.quad2 ((V_th_rel - mu) / sigma) ((V_0_rel - mu) / sigma) * tau_m))
    ∧ ((V_th_rel - mu) / sigma < 20 →
      siegert1 O tau_m tau_r V_th_rel V_0_rel mu sigma
        = 1 / (tau_r + Real.exp (((V_th_rel - mu) / sigma) ^ 2)
            * O.quad1 ((V_th_rel - mu) / sigma) ((V_0_rel - mu) / sigma) * tau_m))
    ∧ (20 ≤ (V_th_rel - mu) / sigma →
      siegert1 O tau_m tau_r V_th_rel V_0_rel mu sigma = 0) := by
  have hcut : V_th_rel + (0.95 * |V_th_rel| - |V_th_rel|)
      = V_th_rel - 0.05 * |V_th_rel| := by ring
  refine ⟨?_, ?_, ?_, ?_⟩
  · intro h
    simp only [nu_0, hcut]
    rw [if_pos h]
  · intro h
    simp only [nu_0, hcut]
    rw [if_neg (not_le.mpr h)]
    simp only [siegert2]
  · intro h
    simp only [siegert1]
    rw [if_neg (not_le.mpr h)]
  · intro h
    simp only [siegert1]
    rw [if_pos h]

/-- C4 witness: at `V_th = 1, mu = 0, sigma = 1` branch A applies with
`y_th = 1 < 20`, and the rate is the reciprocal form. -/
theorem claim4_witness :
    nu_0 trivOracles 1 1 1 0 0 1 = siegert1 trivOracles 1 1 1 0 0 1
    ∧ siegert1 trivOracles 1 1 1 0 0 1
        = 1 / (1 + Real.exp ((((1 : ℝ) - 0) / 1) ^ 2)
            * trivOracles.quad1 (((1 : ℝ) - 0) / 1) (((0 : ℝ) - 0) / 1) * 1) :=
  ⟨(claim4_nu_0_branches trivOracles 1 1 1 0 0 1).1 (by norm_num),
   (claim4_nu_0_branches trivOracles 1 1 1 0 0 1).2.2.1 (by norm_num)⟩

/-- C6 counterexample: `mu = -19` is far below `V_th = 1` (with `sigma = 1`,
`y_th = 20`), yet the delta-synapse rate is `0`: it is neither strictly
positive nor strictly decreasing in `tau_r` (the values at `tau_r = 2` and
`tau_r = 1` coincide). -/
theorem claim6_counterexample :
    nu_0 trivOracles 1 1 1 0 (-19) 1 = 0
    ∧ ¬ 0 < nu_0 trivOracles 1 1 1 0 (-19) 1
    ∧ nu_0 trivOracles 1 2 1 0 (-19) 1 = nu_0 trivOracles 1 1 1 0 (-19) 1 := by
  have hz : ∀ tr : ℝ, nu_0 trivOracles 1 tr 1 0 (-19) 1 = 0 := by
    intro tr
    have hcut : (-19 : ℝ) ≤ 1 + (0.95 * |(1 : ℝ)| - |(1 : ℝ)|) := by norm_num
    have hyth : ((1 : ℝ) - (-19)) / 1 ≥ 20 := by norm_num
    simp only [nu_0]
    rw [if_pos hcut]
    simp only [siegert1]
    rw [if_pos hyth]
  refine ⟨hz 1, ?_, by rw [hz 2, hz 1]⟩
  rw [hz 1]
  exact lt_irrefl 0

/-- C6 (amended): for inputs below the branch cut whose normalised threshold
distance satisfies `y_th < 20` (so that the quadrature branch is taken),
with `tau_m > 0` and a positive quadrature value, the delta-synapse rate is
strictly decreasing in the refractory time `tau_r ≥ 0` and strictly
positive. -/
theorem claim6_monotone (O : NumOracles)
    (tau_m tau_r1 tau_r2 V_th_rel V_0_rel mu sigma : ℝ)
    (hm : 0 < tau_m)
    (hcut : mu ≤ V_th_rel + (0.95 * |V_th_rel| - |V_th_rel|))
    (hyth : (V_th_rel - mu) / sigma < 20)
    (hq : 0 < O.quad1 ((V_th_rel - mu) / sigma) ((V_0_rel - mu) / sigma))
    (hr1 : 0 ≤ tau_r1) (hr12 : tau_r1 < tau_r2) :
    nu_0 O tau_m tau_r2 V_th_rel V_0_rel mu sigma
      < nu_0 O tau_m tau_r1 V_th_rel V_0_rel mu sigma
    ∧ 0 < nu_0 O tau_m tau_r1 V_th_rel V_0_rel mu sigma := by
  have hE : 0 < Real.exp (((V_th_rel - mu) / sigma) ^ 2)
      * O.quad1 ((V_th_rel - mu) / sigma) ((V_0_rel - mu) / sigma) * tau_m :=
    mul_pos (mul_pos (Real.exp_pos _) hq) hm
  have hbr : ∀ tr : ℝ, nu_0 O tau_m tr V_th_rel V_0_rel mu sigma
      = 1 / (tr + Real.exp (((V_th_rel - mu) / sigma) ^ 2)
          * O.quad1 ((V_th_rel - mu) / sigma) ((V_0_rel - mu) / sigma) * tau_m) := by
    intro tr
    simp only [nu_0]
    rw [if_pos hcut]
    simp only [siegert1]
    rw [if_neg (not_le.mpr hyth)]
  have hd1 : 0 < tau_r1 + Real.exp (((V_th_rel - mu) / sigma) ^ 2)
      * O.quad1 ((V_th_rel - mu) / sigma) ((V_0_rel - mu) / sigma) * tau_m := by
    linarith
  have hd12 : tau_r1 + Real.exp (((V_th_rel - mu) / sigma) ^ 2)
        * O.quad1 ((V_th_rel - mu) / sigma) ((V_0_rel - mu) / sigma) * tau_m
      < tau_r2 + Real.exp (((V_th_rel - mu) / sigma) ^ 2)
        * O.quad1 ((V_th_rel - mu) / sigma) ((V_0_rel - mu) / sigma) * tau_m := by
    linarith
  rw [hbr tau_r1, hbr tau_r2]
  exact ⟨one_div_lt_one_div_of_lt hd1 hd12, by positivity⟩

/-- C6 witness: concrete instance with `tau_m = 1, V_th = 1, V_0 = 0,
mu = 0, sigma = 1, tau_r` decreasing from `1` to `0`. -/
theorem claim6_witness :
    nu_0 trivOracles 1 1 1 0 0 1 < nu_0 trivOracles 1 0 1 0 0 1
    ∧ 0 < nu_0 trivOracles 1 0 1 0 0 1 :=
  claim6_monotone trivOracles 1 0 1 1 0 0 1 (by norm_num) (by norm_num)
    (by norm_num) (by norm_num [trivOracles]) (by norm_num) (by norm_num)

/-- C2: `firing_rates` initialises the rate vector to zero and repeats the
relaxation update `nu <- nu + 0.05 * (cand - nu)`, where the candidate maps
every `(mu_i, sigma_i)` — with
`mu = (K*J)·nu·tau_m + j*K_ext*nu_ext*tau_m` and
`sigma^2 = (K*J^2)·nu·tau_m + j^2*K_ext*nu_ext*tau_m` — through the
filtered stationary-rate function `nu0_fb433`, and each pass of the loop
terminates exactly when the maximum absolute step-to-step change of the
rate vector drops below `1e-5`. -/
theorem claim2_firing_rates {n : ℕ} (O : NumOracles)
    (tau_m tau_s tau_r V_0_rel V_th_rel : ℝ) (K J : Matrix (Fin n) (Fin n) ℝ)
    (j nu_ext : ℝ) (K_ext : Fin n → ℝ) (fuel : ℕ) (nu : Fin n → ℝ) :
    firing_rates O tau_m tau_s tau_r V_0_rel V_th_rel K J j nu_ext K_ext fuel
      = firing_rates_go O tau_m tau_s tau_r V_0_rel V_th_rel K J j nu_ext K_ext fuel
          (fun _ => 0)
    ∧ firing_rates_go O tau_m tau_s tau_r V_0_rel V_th_rel K J j nu_ext K_ext
        (fuel + 1) nu
      = (let cand : Fin n → ℝ := fun i =>
            nu0_fb433 O tau_m tau_s tau_r V_th_rel V_0_rel
              ((∑ k, K i k * J i k * nu k) * tau_m + j * K_ext i * nu_ext * tau_m)
              (Real.sqrt ((∑ k, K i k * J i k ^ 2 * nu k) * tau_m
                + j ^ 2 * K_ext i * nu_ext * tau_m))
         let nu1 : Fin n → ℝ := fun i => nu i + 0.05 * (cand i - nu i)
         if maxAbs (fun i => nu1 i - nu i) < 1e-5 then some nu1
         else firing_rates_go O tau_m tau_s tau_r V_0_rel V_th_rel K J j nu_ext K_ext
           fuel nu1) := by
  have hstep : (fun i => nu i
        + get_rate_difference O tau_m tau_s tau_r V_0_rel V_th_rel K J j nu_ext K_ext nu i
          * 0.05)
      = fun i => nu i + 0.05 *
          (nu0_fb433 O tau_m tau_s tau_r V_th_rel V_0_rel
              ((∑ k, K i k * J i k * nu k) * tau_m + j * K_ext i * nu_ext * tau_m)
              (Real.sqrt ((∑ k, K i k * J i k ^ 2 * nu k) * tau_m
                + j ^ 2 * K_ext i * nu_ext * tau_m)) - nu i) := by
    funext i
    simp only [get_rate_difference, fr_mean, fr_std]
    ring
  have hstep2 : (fun i => nu i
        + get_rate_difference O tau_m tau_s tau_r V_0_rel V_th_rel K J j nu_ext K_ext nu i
          * 0.05 - nu i)
      = fun i => nu i + 0.05 *
          (nu0_fb433 O tau_m tau_s tau_r V_th_rel V_0_rel
              ((∑ k, K i k * J i k * nu k) * tau_m + j * K_ext i * nu_ext * tau_m)
              (Real.sqrt ((∑ k, K i k * J i k ^ 2 * nu k) * tau_m
                + j ^ 2 * K_ext i * nu_ext * tau_m)) - nu i) - nu i := by
    funext i
    simp only [get_rate_difference, fr_mean, fr_std]
    ring
  refine ⟨rfl, ?_⟩
  rw [firing_rates_go]
  simp only []
  rw [hstep2, hstep]
  split_ifs <;>
    first
      | rfl
      | (simp only [not_le, not_lt, ge_iff_le] at *
         linarith)

/-- C1 counterexample: with N = 1 population and M = 2 frequencies the batch
evaluator returns a nesting with 2 rows — rows are indexed by frequency —
whereas the claimed N × M shape would have 1 row. -/
theorem claim1_counterexample :
    Except.map List.length
        (transfer_function trivOracles (fun _ => 0) (fun _ => 1) 1 1 1 1 0 1 [1, 2])
      = Except.ok 2
    ∧ (2 : ℕ) ≠ 1 := by
  constructor
  · have h1 : ¬ |(1 : ℝ) - 0| < 1e-15 := by rw [abs_of_nonneg (by norm_num)]; norm_num
    have h2 : ¬ |(2 : ℝ) - 0| < 1e-15 := by rw [abs_of_nonneg (by norm_num)]; norm_num
    obtain ⟨v1, hv1⟩ : ∃ v, transfer_function_1p_shift trivOracles 0 1 1 1 1 1 0 1
        = Except.ok v := by
      simp only [transfer_function_1p_shift]
      rw [if_neg h1]
      exact ⟨_, rfl⟩
    obtain ⟨v2, hv2⟩ : ∃ v, transfer_function_1p_shift trivOracles 0 1 1 1 1 1 0 2
        = Except.ok v := by
      simp only [transfer_function_1p_shift]
      rw [if_neg h2]
      exact ⟨_, rfl⟩
    have hr : List.range 1 = [0] := rfl
    have hbatch : transfer_function trivOracles (fun _ => 0) (fun _ => 1) 1 1 1 1 0 1 [1, 2]
        = Except.ok [[v1], [v2]] := by
      simp only [transfer_function, hr, mapExcept, hv1, hv2]
    rw [hbatch]
    rfl
  · norm_num

/-- C1 (amended): for mean/sd vectors, shared parameters and an M-element
frequency vector, whenever the batch evaluator `transfer_function` succeeds
it returns the transpose of the claimed layout: M rows — one per frequency —
each of length N = `dimension`, with entry (w, i) computed by the shift
variant `transfer_function_1p_shift` at `(mu i, sigma i, omegas w)`. -/
theorem claim1_transfer_function_layout (O : NumOracles) (mu sigma : ℕ → ℝ)
    (tau_m tau_s tau_r V_th_rel V_0_rel : ℝ) (dimension : ℕ) (omegas : List ℝ)
    (rows : List (List ℂ))
    (h : transfer_function O mu sigma tau_m tau_s tau_r V_th_rel V_0_rel dimension omegas
        = Except.ok rows) :
    rows.length = omegas.length
    ∧ ∀ w, w < omegas.length →
        (rows.getD w []).length = dimension
        ∧ ∀ i, i < dimension →
            transfer_function_1p_shift O (mu i) (sigma i) tau_m tau_s tau_r V_th_rel V_0_rel
              (omegas.getD w 0)
              = Except.ok ((rows.getD w []).getD i 0) := by
  have houter := mapExcept_ok_spec _ (0 : ℝ) ([] : List ℂ) omegas rows h
  refine ⟨houter.1, ?_⟩
  intro w hw
  have hrow := houter.2 w hw
  have hinner := mapExcept_ok_spec _ (0 : ℕ) (0 : ℂ) (List.range dimension)
    (rows.getD w []) hrow
  refine ⟨by simpa using hinner.1, ?_⟩
  intro i hi
  have hval := hinner.2 i (by simpa using hi)
  have hidx : (List.range dimension).getD i 0 = i := by
    rw [List.getD_eq_getElem _ _ (by simpa using hi)]
    simp
  rwa [hidx] at hval

/-- C1 witness: with `dimension = 0` and one frequency the evaluation
succeeds and the layout theorem applies: one row per frequency. -/
theorem claim1_witness :
    transfer_function trivOracles (fun _ => 0) (fun _ => 1) 1 1 1 1 0 0 [1] = Except.ok [[]]
    ∧ ([[]] : List (List ℂ)).length = [(1 : ℝ)].length := by
  have h : transfer_function trivOracles (fun _ => 0) (fun _ => 1) 1 1 1 1 0 0 [1]
      = Except.ok [[]] := rfl
  exact ⟨h, (claim1_transfer_function_layout trivOracles (fun _ => 0) (fun _ => 1)
    1 1 1 1 0 0 [1] [[]] h).1⟩

/-- C10: for every input frequency with `|omega - 0| < 1e-15`,
`transfer_function_1p_shift` raises a `TypeError` rather than returning a
value (its zero-frequency branch calls `d_nu_d_mu` with seven positional
arguments while `d_nu_d_mu` accepts only six); consequently the batch
`transfer_function` fails with that `TypeError` whenever the frequency grid
contains `omega = 0` and there is at least one population. -/
theorem claim10_zero_frequency_type_error (O : NumOracles)
    (mu sigma tau_m tau_s tau_r V_th_rel V_0_rel omega : ℝ)
    (muv sigv : ℕ → ℝ) (dimension : ℕ) (omegas : List ℝ) :
    (|omega - 0| < 1e-15 →
      transfer_function_1p_shift O mu sigma tau_m tau_s tau_r V_th_rel V_0_rel omega
        = Except.error PyError.typeError)
    ∧ ((0 : ℝ) ∈ omegas → 0 < dimension →
      transfer_function O muv sigv tau_m tau_s tau_r V_th_rel V_0_rel dimension omegas
        = Except.error PyError.typeError) := by
  constructor
  · intro h
    simp only [transfer_function_1p_shift]
    rw [if_pos h]
  · intro hmem hd
    cases hres : transfer_function O muv sigv tau_m tau_s tau_r V_th_rel V_0_rel
        dimension omegas with
    | error e => cases e; rfl
    | ok rows =>
      exfalso
      obtain ⟨row, hrow⟩ := mapExcept_ok_of_mem _ omegas rows hres 0 hmem
      obtain ⟨y, hy⟩ := mapExcept_ok_of_mem _ (List.range dimension) row hrow 0
        (List.mem_range.mpr hd)
      have hz : transfer_function_1p_shift O (muv 0) (sigv 0) tau_m tau_s tau_r
          V_th_rel V_0_rel 0 = Except.error PyError.typeError := by
        simp only [transfer_function_1p_shift]
        rw [if_pos (by norm_num)]
      rw [hz] at hy
      exact Except.noConfusion hy

/-- C10 witness: at `omega = 0` the single-population evaluator raises
`TypeError`, and a batch over the grid `[0]` with one population fails. -/
theorem claim10_witness :
    |(0 : ℝ) - 0| < 1e-15
    ∧ transfer_function_1p_shift trivOracles 0 1 1 1 1 1 0 0 = Except.error PyError.typeError
    ∧ transfer_function trivOracles (fun _ => 0) (fun _ => 1) 1 1 1 1 0 1 [0]
        = Except.error PyError.typeError := by
  refine ⟨by norm_num, ?_, ?_⟩
  · exact (claim10_zero_frequency_type_error trivOracles 0 1 1 1 1 1 0 0
      (fun _ => 0) (fun _ => 1) 1 [0]).1 (by norm_num)
  · exact (claim10_zero_frequency_type_error trivOracles 0 1 1 1 1 1 0 0
      (fun _ => 0) (fun _ => 1) 1 [0]).2 (by simp) (by norm_num)

/-- C8: every entry of the array returned by `power_spectra` is a
non-negative real number for every (population, frequency) pair, and the
array is assembled with populations as the first axis and frequencies as
the second: the population-indexed row `i` has one entry per frequency,
namely the single-frequency spectrum at that grid point. -/
theorem claim8_power_spectra {n : ℕ} (tfs : List (Fin n → ℂ))
    (ddms : List (Matrix (Fin n) (Fin n) ℂ)) (J K : Matrix (Fin n) (Fin n) ℝ)
    (rates Npop : Fin n → ℝ) (tau_m tau_s : ℝ) (omegas : List ℝ) (i : Fin n) :
    (power_spectra tfs ddms J K rates Npop tau_m tau_s omegas i).length = omegas.length
    ∧ (∀ w, 0 ≤ (power_spectra tfs ddms J K rates Npop tau_m tau_s omegas i).getD w 0)
    ∧ ∀ w, w < omegas.length →
        (power_spectra tfs ddms J K rates Npop tau_m tau_s omegas i).getD w 0
          = power_spectra_single_freq (tfs.getD w fun _ => 0) J K (ddms.getD w 0)
              rates Npop tau_m tau_s (omegas.getD w 0) i := by
  have hps : power_spectra tfs ddms J K rates Npop tau_m tau_s omegas i
      = (List.range omegas.length).map fun w =>
          power_spectra_single_freq (tfs.getD w fun _ => 0) J K (ddms.getD w 0)
            rates Npop tau_m tau_s (omegas.getD w 0) i := by
    simp only [power_spectra, List.map_map]
    rfl
  refine ⟨by rw [hps]; simp, ?_, ?_⟩
  · intro w
    rw [hps]
    by_cases hw : w < omegas.length
    · rw [getD_map_range _ _ _ w hw]
      simp only [power_spectra_single_freq]
      exact AbsoluteValue.nonneg _ _
    · rw [List.getD_eq_default]
      simpa using not_lt.mp hw
  · intro w hw
    rw [hps, getD_map_range _ _ _ w hw]

/-- C8 witness: concrete one-population, one-frequency instance where the
index hypothesis of the assembly conjunct is discharged. -/
theorem claim8_witness :
    (0 : ℕ) < ([0] : List ℝ).length
    ∧ (power_spectra ([fun _ => 0] : List (Fin 1 → ℂ))
          ([0] : List (Matrix (Fin 1) (Fin 1) ℂ)) 0 0 (fun _ => 0) (fun _ => 1)
          1 1 ([0] : List ℝ) 0).getD 0 0
      = power_spectra_single_freq (([fun _ => 0] : List (Fin 1 → ℂ)).getD 0 fun _ => 0)
          0 0 (([0] : List (Matrix (Fin 1) (Fin 1) ℂ)).getD 0 0) (fun _ => 0) (fun _ => 1)
          1 1 (([0] : List ℝ).getD 0 0) 0 :=
  ⟨by norm_num,
   (claim8_power_spectra ([fun _ => 0] : List (Fin 1 → ℂ))
      ([0] : List (Matrix (Fin 1) (Fin 1) ℂ)) 0 0 (fun _ => 0) (fun _ => 1)
      1 1 ([0] : List ℝ) 0).2.2 0 (by norm_num)⟩

/-- C7: `sensitivity_measure` eigendecomposes the effective-connectivity
matrix `MH(omega)` (through the `eig` oracle standing for
`np.linalg.eig`), selects the eigenvalue index `k` by strict argmin over
`|e - 1|` taking the first index on ties (the function has no parameter
through which an explicit mode index could be supplied: its local `index`
variable is initialised to `None` and immediately overwritten by the
argmin), and returns the rank-1 projector `outer (u_inv_k, u_k)` divided by
the scalar `u_inv_k · u_k`, multiplied elementwise by `MH(omega)`. -/
theorem claim7_sensitivity_measure {n : ℕ} (hn : 0 < n) (O : NumOracles)
    (tf : Fin n → ℂ) (ddm : Matrix (Fin n) (Fin n) ℂ) (J : Matrix (Fin n) (Fin n) ℝ)
    (tau_m tau_s omega : ℝ) :
    ∃ k : Fin n,
      (∀ m : Fin n,
        Complex.abs ((O.eig n (sm_MH tf ddm J tau_m tau_s omega)).1 k - 1)
          ≤ Complex.abs ((O.eig n (sm_MH tf ddm J tau_m tau_s omega)).1 m - 1))
      ∧ (∀ m : Fin n, (m : ℕ) < (k : ℕ) →
        Complex.abs ((O.eig n (sm_MH tf ddm J tau_m tau_s omega)).1 k - 1)
          < Complex.abs ((O.eig n (sm_MH tf ddm J tau_m tau_s omega)).1 m - 1))
      ∧ sensitivity_measure O tf ddm J tau_m tau_s omega
          = Matrix.of fun i j =>
              ((O.eig n (sm_MH tf ddm J tau_m tau_s omega)).2)⁻¹ k i
                * (O.eig n (sm_MH tf ddm J tau_m tau_s omega)).2 j k
                / (∑ m, ((O.eig n (sm_MH tf ddm J tau_m tau_s omega)).2)⁻¹ k m
                    * (O.eig n (sm_MH tf ddm J tau_m tau_s omega)).2 m k)
                * sm_MH tf ddm J tau_m tau_s omega i j := by
  set l := (List.finRange n).map (fun m =>
    Complex.abs ((O.eig n (sm_MH tf ddm J tau_m tau_s omega)).1 m - 1)) with hl
  have hlen : l.length = n := by rw [hl]; simp
  have hpos : 0 < l.length := by rw [hlen]; exact hn
  have hlt : argminIdx l < n := hlen ▸ argminIdx_lt_length l hpos
  have hgetD : ∀ m : Fin n, l.getD (m : ℕ) 0
      = Complex.abs ((O.eig n (sm_MH tf ddm J tau_m tau_s omega)).1 m - 1) := by
    intro m
    rw [hl]
    exact getD_map_finRange _ 0 m
  have hmin : l.getD (argminIdx l) 0 = minVal l := minVal_getD_argminIdx l hpos
  have hkval : ((⟨argminIdx l, hlt⟩ : Fin n) : ℕ) = argminIdx l := rfl
  refine ⟨⟨argminIdx l, hlt⟩, ?_, ?_, ?_⟩
  · intro m
    rw [← hgetD ⟨argminIdx l, hlt⟩, ← hgetD m, hkval, hmin]
    exact minVal_le l (m : ℕ) (by rw [hlen]; exact m.isLt)
  · intro m hm
    rw [← hgetD ⟨argminIdx l, hlt⟩, ← hgetD m, hkval, hmin]
    exact argminIdx_first l (m : ℕ) (by rwa [hkval] at hm)
  · simp only [sensitivity_measure]
    rw [← hl]
    rw [dif_pos hlt]

/-- C7 witness: one-dimensional instance discharging the nonempty-dimension
hypothesis. -/
theorem claim7_witness :
    ∃ k : Fin 1,
      (∀ m : Fin 1,
        Complex.abs ((trivOracles.eig 1 (sm_MH (fun _ => 0) 0 0 1 1 1)).1 k - 1)
          ≤ Complex.abs ((trivOracles.eig 1 (sm_MH (fun _ => 0) 0 0 1 1 1)).1 m - 1))
      ∧ (∀ m : Fin 1, (m : ℕ) < (k : ℕ) →
        Complex.abs ((trivOracles.eig 1 (sm_MH (fun _ => 0) 0 0 1 1 1)).1 k - 1)
          < Complex.abs ((trivOracles.eig 1 (sm_MH (fun _ => 0) 0 0 1 1 1)).1 m - 1))
      ∧ sensitivity_measure trivOracles (fun _ => 0) 0 0 1 1 1
          = Matrix.of fun i j =>
              ((trivOracles.eig 1 (sm_MH (fun _ => 0) 0 0 1 1 1)).2)⁻¹ k i
                * (trivOracles.eig 1 (sm_MH (fun _ => 0) 0 0 1 1 1)).2 j k
                / (∑ m, ((trivOracles.eig 1 (sm_MH (fun _ => 0) 0 0 1 1 1)).2)⁻¹ k m
                    * (trivOracles.eig 1 (sm_MH (fun _ => 0) 0 0 1 1 1)).2 m k)
                * sm_MH (fun _ => 0) 0 0 1 1 1 i j :=
  claim7_sensitivity_measure (by norm_num) trivOracles (fun _ => 0) 0 0 1 1 1
